import Mathlib

/-! # Chatroom hub: a shallow embedding of `chatroom.go`

The Go program keeps a map of live websocket connections and runs one loop
(`ChatRoom.run`) that serves three channels: `register`, `unregister` and
`broadcast`.  Each connection is served by `handleChatRoom`, which registers the
connection, forwards every message it reads and unregisters on the first read
error.

The embedding is sequential: one iteration of the `for { select { ... } }` loop
is the function `ChatRoom.runStep`, and `ChatRoom.run` folds it over the
requests the loop receives.  Everything the loop does to the outside world
(`WriteMessage`, `Println`, `Close`) is recorded in an effect log.

The program sets no write deadline, so a call of `WriteMessage` may return
`nil`, return an error, or not return at all (the peer has stopped reading).
In the last case the loop stays inside that call: the rest of the fan-out and
all later requests are never processed.
-/

namespace Chatroom

/-! ## Data model -/

/-- A connection handle, `*websocket.Conn`.  Go compares the pointers, so a
handle is modelled by its address. -/
abbrev Conn := Nat

/-- A payload, `[]byte`. -/
abbrev Message := List UInt8

/-- The hub, `type ChatRoom struct`.  `clients` is `map[*websocket.Conn]bool`;
the only value ever stored is `true` and no value is ever read, so the map is
represented by the list of its keys.  A Go map holds a key at most once, which
is the `Nodup` property of this list.  The three channels are the inputs of
`runStep`; the mutex is only taken by the loop itself and has no sequential
content. -/
structure ChatRoom where
  clients : List Conn
deriving DecidableEq

/-- The constructor `NewChatRoom`: an empty map. -/
def NewChatRoom : ChatRoom := ⟨[]⟩

/-- What a connection handler sends to the hub: a value on one of the channels
`register`, `unregister`, `broadcast`. -/
inductive Request where
  | register (client : Conn)
  | unregister (client : Conn)
  | broadcast (message : Message)
deriving DecidableEq

/-- How a call of `client.WriteMessage(websocket.TextMessage, message)` ends. -/
inductive WriteResult where
  /-- The call returned `nil`. -/
  | ok
  /-- The call returned a non-nil error. -/
  | err
  /-- The call does not return: no write deadline is set on the connection. -/
  | noReturn
deriving DecidableEq

/-- What the hub loop does to the outside world. -/
inductive Effect where
  /-- The call `client.WriteMessage(websocket.TextMessage, message)` and how it
  ended. -/
  | writeMessage (client : Conn) (message : Message) (res : WriteResult)
  /-- The call `fmt.Println(text, ...)`. -/
  | println (text : String)
  /-- The call `client.Close()`. -/
  | close (client : Conn)
deriving DecidableEq

/-- What the environment decides during one iteration of the loop: `order`
fixes the order in which `range c.clients` yields the keys (Go leaves it
unspecified and it may differ from one loop to the next), and `write client`
tells how `WriteMessage` on `client` ends. -/
structure Env where
  order : List Nat
  write : Conn → WriteResult

/-- Where the hub loop stands after some work: the hub (component `.1`), the
effects performed, oldest first (component `.2`), and whether the work ran to
its end (component `.3`); `returned = false` means that the loop is inside a
call of `WriteMessage` that does not return. -/
structure RunResult where
  room : ChatRoom
  effects : List Effect
  returned : Bool
deriving DecidableEq

/-! ## Go map operations on the key list -/

/-- The assignment `m[k] = true`: a key already present stays where it is. -/
def mapInsert (m : List Conn) (k : Conn) : List Conn :=
  if k ∈ m then m else m ++ [k]

/-- The builtin `delete(m, k)`: afterwards `k` is not a key of `m`. -/
def mapDelete (m : List Conn) (k : Conn) : List Conn :=
  m.filter (fun x => x != k)

/-- The order in which `range m` yields the keys of `m`: the head of the key
list is inserted at position `k % (length + 1)` into the order of the tail.
Every arrangement of the keys arises from some `order` (see
`rangeOrder_complete`). -/
def rangeOrder : List Nat → List Conn → List Conn
  | _, [] => []
  | [], x :: xs => x :: xs
  | k :: ks, x :: xs => (rangeOrder ks xs).insertIdx (k % (xs.length + 1)) x

/-! ## The hub loop -/

/-- The loop `for client := range c.clients { ... }` of the broadcast case.
The first argument is the keys still to be yielded, the second the current map.
A key that has been deleted before it is reached is not yielded.  The result is
the map, the effects, and whether the loop ran to its end; when a call of
`WriteMessage` does not return, the keys after it are never reached. -/
def broadcastLoop (message : Message) (write : Conn → WriteResult) :
    List Conn → List Conn → List Conn × List Effect × Bool
  | [], m => (m, [], true)
  | client :: rest, m =>
    if client ∈ m then
      match write client with
      | WriteResult.ok =>
        let r := broadcastLoop message write rest m
        (r.1, Effect.writeMessage client message WriteResult.ok :: r.2.1, r.2.2)
      | WriteResult.err =>
        let r := broadcastLoop message write rest (mapDelete m client)
        (r.1, Effect.writeMessage client message WriteResult.err
                :: Effect.println "Error broadcasting message:"
                :: Effect.close client :: r.2.1, r.2.2)
      | WriteResult.noReturn =>
        (m, [Effect.writeMessage client message WriteResult.noReturn], false)
    else broadcastLoop message write rest m

/-- One iteration of the `for { select { ... } }` loop of `ChatRoom.run`, for
the request received: the new hub, the effects performed, and whether the
iteration ran to its end. -/
def ChatRoom.runStep (c : ChatRoom) (env : Env) : Request → RunResult
  | Request.register client => ⟨⟨mapInsert c.clients client⟩, [], true⟩
  | Request.unregister client => ⟨⟨mapDelete c.clients client⟩, [], true⟩
  | Request.broadcast message =>
    let r := broadcastLoop message env.write (rangeOrder env.order c.clients) c.clients
    ⟨⟨r.1⟩, r.2.1, r.2.2⟩

/-- The method `ChatRoom.run` on the requests sent to it, in the order it
receives them: the hub afterwards, all effects, oldest first, and whether every
request has been processed.  After an iteration that does not run to its end no
further request is received. -/
def ChatRoom.run (c : ChatRoom) : List (Request × Env) → RunResult
  | [] => ⟨c, [], true⟩
  | x :: rest =>
    let r := c.runStep x.2 x.1
    if r.returned then
      let r2 := ChatRoom.run r.room rest
      ⟨r2.room, r.effects ++ r2.effects, r2.returned⟩
    else r

/-! ## The connection handler -/

/-- The payloads passed to `WriteMessage` on `p`, oldest first, however the
calls ended. -/
def attempts (p : Conn) : List Effect → List Message
  | [] => []
  | Effect.writeMessage c m _ :: rest => if c = p then m :: attempts p rest else attempts p rest
  | _ :: rest => attempts p rest

/-- The payloads written to `p` without error, oldest first. -/
def delivered (p : Conn) : List Effect → List Message
  | [] => []
  | Effect.writeMessage c m r :: rest =>
    if c = p ∧ r = WriteResult.ok then m :: delivered p rest else delivered p rest
  | _ :: rest => delivered p rest

/-- The payloads of the broadcast requests of a request sequence, in order. -/
def payloads : List (Request × Env) → List Message
  | [] => []
  | (Request.broadcast m, _) :: rest => m :: payloads rest
  | _ :: rest => payloads rest

/-- The effects of one pass through the body of the broadcast loop. -/
def visitEffects (message : Message) (write : Conn → WriteResult) (client : Conn) :
    List Effect :=
  match write client with
  | WriteResult.ok => [Effect.writeMessage client message WriteResult.ok]
  | WriteResult.err =>
    [Effect.writeMessage client message WriteResult.err,
     Effect.println "Error broadcasting message:",
     Effect.close client]
  | WriteResult.noReturn => [Effect.writeMessage client message WriteResult.noReturn]

/-- An environment in which every write succeeds and `range` follows the key
list. -/
def envOk : Env := ⟨[], fun _ => WriteResult.ok⟩

/-- An environment in which exactly the writes to connection `1` fail, with a
rearranged iteration order. -/
def envFail1 : Env := ⟨[1, 0, 2], fun c => if c = 1 then WriteResult.err else WriteResult.ok⟩

theorem mem_mapInsert (m : List Conn) (k q : Conn) :
    q ∈ mapInsert m k ↔ q ∈ m ∨ q = k := by
  unfold mapInsert
  by_cases h : k ∈ m
  · simp only [h, if_true]
    constructor
    · exact Or.inl
    · rintro (h1 | h1)
      · exact h1
      · exact h1 ▸ h
  · simp [h]

theorem mem_mapDelete (m : List Conn) (k q : Conn) :
    q ∈ mapDelete m k ↔ q ∈ m ∧ q ≠ k := by
  simp [mapDelete]

theorem mapInsert_of_mem (m : List Conn) (k : Conn) (h : k ∈ m) : mapInsert m k = m := by
  simp [mapInsert, h]

theorem mapDelete_of_not_mem (m : List Conn) (k : Conn) (h : k ∉ m) : mapDelete m k = m := by
  unfold mapDelete
  rw [List.filter_eq_self]
  intro a ha
  have : a ≠ k := fun hak => h (hak ▸ ha)
  simpa using this

theorem nodup_mapInsert (m : List Conn) (k : Conn) (h : m.Nodup) : (mapInsert m k).Nodup := by
  unfold mapInsert
  by_cases hk : k ∈ m
  · simpa [hk] using h
  · simp only [hk, if_false]
    rw [List.nodup_append]
    refine ⟨h, List.nodup_singleton k, ?_⟩
    intro a ha hb
    rw [List.mem_singleton] at hb
    exact hk (hb ▸ ha)

theorem nodup_mapDelete (m : List Conn) (k : Conn) (h : m.Nodup) : (mapDelete m k).Nodup :=
  h.filter _

/-! ## Iteration order -/

theorem rangeOrder_nil (ks : List Nat) : rangeOrder ks [] = [] := by
  cases ks <;> rfl

theorem length_rangeOrder (ks : List Nat) (m : List Conn) :
    (rangeOrder ks m).length = m.length := by
  induction m generalizing ks with
  | nil => cases ks <;> rfl
  | cons x xs ih =>
    cases ks with
    | nil => rfl
    | cons k ks =>
      simp only [rangeOrder]
      rw [List.length_insertIdx, ih]
      · simp
      · rw [ih]; exact Nat.lt_succ_iff.mp (Nat.mod_lt _ (Nat.succ_pos _))

theorem rangeOrder_perm (ks : List Nat) (m : List Conn) : (rangeOrder ks m).Perm m := by
  induction m generalizing ks with
  | nil => cases ks <;> exact List.Perm.refl _
  | cons x xs ih =>
    cases ks with
    | nil => exact List.Perm.refl _
    | cons k ks =>
      simp only [rangeOrder]
      have hle : k % (xs.length + 1) ≤ (rangeOrder ks xs).length := by
        rw [length_rangeOrder]; exact Nat.lt_succ_iff.mp (Nat.mod_lt _ (Nat.succ_pos _))
      exact (List.perm_insertIdx x _ hle).trans ((ih ks).cons x)

theorem mem_rangeOrder (ks : List Nat) (m : List Conn) (q : Conn) :
    q ∈ rangeOrder ks m ↔ q ∈ m :=
  (rangeOrder_perm ks m).mem_iff

theorem nodup_rangeOrder (ks : List Nat) (m : List Conn) (h : m.Nodup) :
    (rangeOrder ks m).Nodup :=
  (rangeOrder_perm ks m).nodup_iff.mpr h

theorem insertIdx_length_append (a b : List Conn) (x : Conn) :
    (a ++ b).insertIdx a.length x = a ++ x :: b := by
  induction a with
  | nil => simp
  | cons y ys ih => simpa using ih

/-- Every arrangement of the keys is the iteration order for some `order`. -/
theorem rangeOrder_complete (m l : List Conn) (h : l.Perm m) :
    ∃ ks, rangeOrder ks m = l := by
  induction m generalizing l with
  | nil => exact ⟨[], by rw [List.Perm.eq_nil h]; rfl⟩
  | cons x xs ih =>
    have hx : x ∈ l := h.mem_iff.mpr (List.mem_cons_self x xs)
    obtain ⟨a, b, rfl⟩ := List.append_of_mem hx
    have hab : (a ++ b).Perm xs := by
      have h1 : (x :: (a ++ b)).Perm (x :: xs) := List.perm_middle.symm.trans h
      exact (List.perm_cons x).mp h1
    obtain ⟨ks, hks⟩ := ih (a ++ b) hab
    refine ⟨a.length :: ks, ?_⟩
    have hlen : a.length < xs.length + 1 := by
      have := hab.length_eq
      simp only [List.length_append] at this
      omega
    simp only [rangeOrder, hks, Nat.mod_eq_of_lt hlen]
    exact insertIdx_length_append a b x

/-! ## The broadcast loop -/

theorem broadcastLoop_nil (M : Message) (w : Conn → WriteResult) (m : List Conn) :
    broadcastLoop M w [] m = (m, [], true) := rfl

theorem broadcastLoop_skip (M : Message) (w : Conn → WriteResult) (client : Conn)
    (rest m : List Conn) (hm : client ∉ m) :
    broadcastLoop M w (client :: rest) m = broadcastLoop M w rest m := by
  simp [broadcastLoop, hm]

theorem broadcastLoop_ok (M : Message) (w : Conn → WriteResult) (client : Conn)
    (rest m : List Conn) (hm : client ∈ m) (hw : w client = WriteResult.ok) :
    broadcastLoop M w (client :: rest) m
      = ((broadcastLoop M w rest m).1,
          Effect.writeMessage client M WriteResult.ok :: (broadcastLoop M w rest m).2.1,
          (broadcastLoop M w rest m).2.2) := by
  simp [broadcastLoop, hm, hw]

theorem broadcastLoop_err (M : Message) (w : Conn → WriteResult) (client : Conn)
    (rest m : List Conn) (hm : client ∈ m) (hw : w client = WriteResult.err) :
    broadcastLoop M w (client :: rest) m
      = ((broadcastLoop M w rest (mapDelete m client)).1,
          Effect.writeMessage client M WriteResult.err
            :: Effect.println "Error broadcasting message:"
            :: Effect.close client :: (broadcastLoop M w rest (mapDelete m client)).2.1,
          (broadcastLoop M w rest (mapDelete m client)).2.2) := by
  simp [broadcastLoop, hm, hw]

theorem broadcastLoop_noReturn (M : Message) (w : Conn → WriteResult) (client : Conn)
    (rest m : List Conn) (hm : client ∈ m) (hw : w client = WriteResult.noReturn) :
    broadcastLoop M w (client :: rest) m
      = (m, [Effect.writeMessage client M WriteResult.noReturn], false) := by
  simp [broadcastLoop, hm, hw]

/-- The loop only removes keys. -/
theorem broadcastLoop_subset (M : Message) (w : Conn → WriteResult) (order m : List Conn)
    (x : Conn) (h : x ∈ (broadcastLoop M w order m).1) : x ∈ m := by
  induction order generalizing m with
  | nil => exact h
  | cons client rest ih =>
    by_cases hm : client ∈ m
    · cases hw : w client with
      | ok =>
        rw [broadcastLoop_ok M w client rest m hm hw] at h
        exact ih m h
      | err =>
        rw [broadcastLoop_err M w client rest m hm hw] at h
        exact ((mem_mapDelete _ _ _).mp (ih _ h)).1
      | noReturn =>
        rw [broadcastLoop_noReturn M w client rest m hm hw] at h
        exact h
    · rw [broadcastLoop_skip M w client rest m hm] at h
      exact ih m h

/-- A key whose write does not fail is kept. -/
theorem broadcastLoop_kept (M : Message) (w : Conn → WriteResult) (order m : List Conn)
    (x : Conn) (hx : x ∈ m) (hw : w x ≠ WriteResult.err) :
    x ∈ (broadcastLoop M w order m).1 := by
  induction order generalizing m with
  | nil => exact hx
  | cons client rest ih =>
    by_cases hm : client ∈ m
    · cases hwc : w client with
      | ok =>
        rw [broadcastLoop_ok M w client rest m hm hwc]
        exact ih m hx
      | err =>
        rw [broadcastLoop_err M w client rest m hm hwc]
        apply ih
        rw [mem_mapDelete]
        refine ⟨hx, ?_⟩
        intro hxc
        rw [hxc] at hw
        exact hw hwc
      | noReturn =>
        rw [broadcastLoop_noReturn M w client rest m hm hwc]
        exact hx
    · rw [broadcastLoop_skip M w client rest m hm]
      exact ih m hx

/-- Every write of the loop is made on a key of the map, with the payload of the
broadcast, and ends as the environment says. -/
theorem mem_broadcastLoop_effects (M : Message) (w : Conn → WriteResult) (order m : List Conn)
    (c : Conn) (msg : Message) (r : WriteResult)
    (h : Effect.writeMessage c msg r ∈ (broadcastLoop M w order m).2.1) :
    c ∈ m ∧ c ∈ order ∧ msg = M ∧ r = w c := by
  induction order generalizing m with
  | nil => simp [broadcastLoop_nil] at h
  | cons client rest ih =>
    by_cases hm : client ∈ m
    · cases hw : w client with
      | ok =>
        rw [broadcastLoop_ok M w client rest m hm hw] at h
        rcases List.mem_cons.mp h with h | h
        · injection h with h1 h2 h3
          subst h1
          exact ⟨hm, List.mem_cons_self _ _, h2, by rw [hw]; exact h3⟩
        · obtain ⟨h1, h2, h3, h4⟩ := ih _ h
          exact ⟨h1, List.mem_cons_of_mem _ h2, h3, h4⟩
      | err =>
        rw [broadcastLoop_err M w client rest m hm hw] at h
        simp only [List.mem_cons] at h
        rcases h with h | h | h | h
        · injection h with h1 h2 h3
          subst h1
          exact ⟨hm, List.mem_cons_self _ _, h2, by rw [hw]; exact h3⟩
        · cases h
        · cases h
        · obtain ⟨h1, h2, h3, h4⟩ := ih _ h
          exact ⟨((mem_mapDelete _ _ _).mp h1).1, List.mem_cons_of_mem _ h2, h3, h4⟩
      | noReturn =>
        rw [broadcastLoop_noReturn M w client rest m hm hw] at h
        rw [List.mem_singleton] at h
        injection h with h1 h2 h3
        subst h1
        exact ⟨hm, List.mem_cons_self _ _, h2, by rw [hw]; exact h3⟩
    · rw [broadcastLoop_skip M w client rest m hm] at h
      obtain ⟨h1, h2, h3, h4⟩ := ih _ h
      exact ⟨h1, List.mem_cons_of_mem _ h2, h3, h4⟩

/-- Every effect of the loop belongs to the visit of some key of the map. -/
theorem broadcastLoop_effects_visit (M : Message) (w : Conn → WriteResult)
    (order m : List Conn) (x : Effect) (h : x ∈ (broadcastLoop M w order m).2.1) :
    ∃ c, c ∈ m ∧ x ∈ visitEffects M w c := by
  induction order generalizing m with
  | nil => simp [broadcastLoop_nil] at h
  | cons client rest ih =>
    by_cases hm : client ∈ m
    · cases hw : w client with
      | ok =>
        rw [broadcastLoop_ok M w client rest m hm hw] at h
        rcases List.mem_cons.mp h with h | h
        · exact ⟨client, hm, by simp [visitEffects, hw, h]⟩
        · exact ih _ h
      | err =>
        rw [broadcastLoop_err M w client rest m hm hw] at h
        simp only [List.mem_cons] at h
        rcases h with h | h | h | h
        · exact ⟨client, hm, by simp [visitEffects, hw, h]⟩
        · exact ⟨client, hm, by simp [visitEffects, hw, h]⟩
        · exact ⟨client, hm, by simp [visitEffects, hw, h]⟩
        · obtain ⟨c, hc, hx⟩ := ih _ h
          exact ⟨c, ((mem_mapDelete _ _ _).mp hc).1, hx⟩
      | noReturn =>
        rw [broadcastLoop_noReturn M w client rest m hm hw] at h
        rw [List.mem_singleton] at h
        exact ⟨client, hm, by simp [visitEffects, hw, h]⟩
    · rw [broadcastLoop_skip M w client rest m hm] at h
      exact ih _ h

/-- A key that the loop removes had a failed write. -/
theorem broadcastLoop_lost (M : Message) (w : Conn → WriteResult) (order m : List Conn)
    (x : Conn) (hx : x ∈ m) (h : x ∉ (broadcastLoop M w order m).1) :
    Effect.writeMessage x M WriteResult.err ∈ (broadcastLoop M w order m).2.1 := by
  induction order generalizing m with
  | nil => exact absurd hx h
  | cons client rest ih =>
    by_cases hm : client ∈ m
    · cases hw : w client with
      | ok =>
        rw [broadcastLoop_ok M w client rest m hm hw] at h ⊢
        exact List.mem_cons_of_mem _ (ih m hx h)
      | err =>
        rw [broadcastLoop_err M w client rest m hm hw] at h ⊢
        by_cases hxc : x = client
        · rw [hxc]
          exact List.mem_cons_self _ _
        · have := ih (mapDelete m client) ((mem_mapDelete _ _ _).mpr ⟨hx, hxc⟩) h
          exact List.mem_cons_of_mem _ (List.mem_cons_of_mem _ (List.mem_cons_of_mem _ this))
      | noReturn =>
        rw [broadcastLoop_noReturn M w client rest m hm hw] at h
        exact absurd hx h
    · rw [broadcastLoop_skip M w client rest m hm] at h ⊢
      exact ih m hx h

/-- A loop that runs to its end has made the write on every key of the map. -/
theorem broadcastLoop_written (M : Message) (w : Conn → WriteResult) (order m : List Conn)
    (q : Conn) (ho : q ∈ order) (hq : q ∈ m) (hret : (broadcastLoop M w order m).2.2 = true) :
    Effect.writeMessage q M (w q) ∈ (broadcastLoop M w order m).2.1 := by
  induction order generalizing m with
  | nil => cases ho
  | cons client rest ih =>
    by_cases hm : client ∈ m
    · cases hw : w client with
      | ok =>
        rw [broadcastLoop_ok M w client rest m hm hw] at hret ⊢
        by_cases hqc : q = client
        · rw [hqc, hw]
          exact List.mem_cons_self _ _
        · have hor : q ∈ rest := (List.mem_cons.mp ho).resolve_left hqc
          exact List.mem_cons_of_mem _ (ih m hor hq hret)
      | err =>
        rw [broadcastLoop_err M w client rest m hm hw] at hret ⊢
        by_cases hqc : q = client
        · rw [hqc, hw]
          exact List.mem_cons_self _ _
        · have hor : q ∈ rest := (List.mem_cons.mp ho).resolve_left hqc
          have := ih (mapDelete m client) hor ((mem_mapDelete _ _ _).mpr ⟨hq, hqc⟩) hret
          exact List.mem_cons_of_mem _ (List.mem_cons_of_mem _ (List.mem_cons_of_mem _ this))
      | noReturn =>
        rw [broadcastLoop_noReturn M w client rest m hm hw] at hret
        cases hret
    · rw [broadcastLoop_skip M w client rest m hm] at hret ⊢
      have hqc : q ≠ client := fun h => hm (h ▸ hq)
      exact ih m ((List.mem_cons.mp ho).resolve_left hqc) hq hret

/-- A loop that runs to its end has removed every key whose write failed. -/
theorem broadcastLoop_evicted (M : Message) (w : Conn → WriteResult) (order m : List Conn)
    (q : Conn) (ho : q ∈ order) (hw : w q = WriteResult.err)
    (hret : (broadcastLoop M w order m).2.2 = true) :
    q ∉ (broadcastLoop M w order m).1 := by
  intro hin
  have hq : q ∈ m := broadcastLoop_subset M w order m q hin
  induction order generalizing m with
  | nil => cases ho
  | cons client rest ih =>
    by_cases hm : client ∈ m
    · cases hwc : w client with
      | ok =>
        rw [broadcastLoop_ok M w client rest m hm hwc] at hret hin
        have hqc : q ≠ client := by
          intro h; rw [h, hwc] at hw; cases hw
        exact ih m ((List.mem_cons.mp ho).resolve_left hqc) hret hin hq
      | err =>
        rw [broadcastLoop_err M w client rest m hm hwc] at hret hin
        have hq' := broadcastLoop_subset M w rest _ q hin
        have hqc : q ≠ client := ((mem_mapDelete _ _ _).mp hq').2
        exact ih _ ((List.mem_cons.mp ho).resolve_left hqc) hret hin hq'
      | noReturn =>
        rw [broadcastLoop_noReturn M w client rest m hm hwc] at hret
        cases hret
    · rw [broadcastLoop_skip M w client rest m hm] at hret hin
      have hqc : q ≠ client := fun h => hm (h ▸ hq)
      exact ih m ((List.mem_cons.mp ho).resolve_left hqc) hret hin hq

/-- The loop runs to its end when the write on every key of the map returns. -/
theorem broadcastLoop_returned (M : Message) (w : Conn → WriteResult) (order m : List Conn)
    (h : ∀ c, c ∈ m → w c ≠ WriteResult.noReturn) :
    (broadcastLoop M w order m).2.2 = true := by
  induction order generalizing m with
  | nil => rfl
  | cons client rest ih =>
    by_cases hm : client ∈ m
    · cases hw : w client with
      | ok =>
        rw [broadcastLoop_ok M w client rest m hm hw]
        exact ih m h
      | err =>
        rw [broadcastLoop_err M w client rest m hm hw]
        exact ih _ (fun c hc => h c ((mem_mapDelete _ _ _).mp hc).1)
      | noReturn => exact absurd hw (h client hm)
    · rw [broadcastLoop_skip M w client rest m hm]
      exact ih m h

/-- When the loop runs to its end, the write on every key it was to yield has
returned. -/
theorem broadcastLoop_returned_imp (M : Message) (w : Conn → WriteResult)
    (order m : List Conn) (hret : (broadcastLoop M w order m).2.2 = true)
    (c : Conn) (ho : c ∈ order) (hc : c ∈ m) : w c ≠ WriteResult.noReturn := by
  have := broadcastLoop_written M w order m c ho hc hret
  intro hw
  rw [hw] at this
  induction order generalizing m with
  | nil => cases ho
  | cons client rest ih =>
    by_cases hm : client ∈ m
    · cases hwc : w client with
      | ok =>
        rw [broadcastLoop_ok M w client rest m hm hwc] at hret this
        have hcc : c ≠ client := by
          intro h; rw [h, hwc] at hw; cases hw
        rcases List.mem_cons.mp this with h | h
        · injection h with h1 _ _
          exact hcc h1
        · exact ih m hret ((List.mem_cons.mp ho).resolve_left hcc) hc h
      | err =>
        rw [broadcastLoop_err M w client rest m hm hwc] at hret this
        have hcc : c ≠ client := by
          intro h; rw [h, hwc] at hw; cases hw
        simp only [List.mem_cons] at this
        rcases this with h | h | h | h
        · injection h with h1 _ _
          exact hcc h1
        · cases h
        · cases h
        · exact ih _ hret ((List.mem_cons.mp ho).resolve_left hcc)
            ((mem_mapDelete _ _ _).mpr ⟨hc, hcc⟩) h
      | noReturn =>
        rw [broadcastLoop_noReturn M w client rest m hm hwc] at hret
        cases hret
    · rw [broadcastLoop_skip M w client rest m hm] at hret this
      have hcc : c ≠ client := fun h => hm (h ▸ hc)
      exact ih m hret ((List.mem_cons.mp ho).resolve_left hcc) hc this

/-- A loop without a failed write leaves the map as it was. -/
theorem broadcastLoop_unchanged (M : Message) (w : Conn → WriteResult) (order m : List Conn)
    (h : ∀ c msg, Effect.writeMessage c msg WriteResult.err ∉ (broadcastLoop M w order m).2.1) :
    (broadcastLoop M w order m).1 = m := by
  induction order generalizing m with
  | nil => rfl
  | cons client rest ih =>
    by_cases hm : client ∈ m
    · cases hw : w client with
      | ok =>
        rw [broadcastLoop_ok M w client rest m hm hw] at h ⊢
        exact ih m (fun c msg hc => h c msg (List.mem_cons_of_mem _ hc))
      | err =>
        rw [broadcastLoop_err M w client rest m hm hw] at h
        exact absurd (List.mem_cons_self _ _) (h client M)
      | noReturn =>
        rw [broadcastLoop_noReturn M w client rest m hm hw]
    · rw [broadcastLoop_skip M w client rest m hm] at h ⊢
      exact ih m h

/-! ## Observations -/

theorem attempts_append (p : Conn) (a b : List Effect) :
    attempts p (a ++ b) = attempts p a ++ attempts p b := by
  induction a with
  | nil => rfl
  | cons x xs ih =>
    cases x with
    | writeMessage c m e =>
      by_cases h : c = p <;> simp [attempts, h, ih]
    | println t => simpa [attempts] using ih
    | close c => simpa [attempts] using ih

theorem delivered_append (p : Conn) (a b : List Effect) :
    delivered p (a ++ b) = delivered p a ++ delivered p b := by
  induction a with
  | nil => rfl
  | cons x xs ih =>
    cases x with
    | writeMessage c m e =>
      by_cases h : c = p ∧ e = WriteResult.ok <;> simp [delivered, h, ih]
    | println t => simpa [delivered] using ih
    | close c => simpa [delivered] using ih

theorem attempts_eq_nil (p : Conn) (effs : List Effect)
    (h : ∀ m e, Effect.writeMessage p m e ∉ effs) : attempts p effs = [] := by
  induction effs with
  | nil => rfl
  | cons x xs ih =>
    have hxs : ∀ m e, Effect.writeMessage p m e ∉ xs :=
      fun m e hm => h m e (List.mem_cons_of_mem _ hm)
    cases x with
    | writeMessage c m e =>
      have hc : c ≠ p := by
        intro hcp
        subst hcp
        exact h m e (List.mem_cons_self _ _)
      simp [attempts, hc, ih hxs]
    | println t => simpa [attempts] using ih hxs
    | close c => simpa [attempts] using ih hxs

theorem delivered_sublist_attempts (p : Conn) (effs : List Effect) :
    (delivered p effs).Sublist (attempts p effs) := by
  induction effs with
  | nil => exact List.Sublist.slnil
  | cons x xs ih =>
    cases x with
    | writeMessage c m e =>
      by_cases hc : c = p
      · by_cases he : e = WriteResult.ok
        · simpa [delivered, attempts, hc, he] using ih
        · simpa [delivered, attempts, hc, he] using ih.cons m
      · simpa [delivered, attempts, hc] using ih
    | println t => simpa [delivered, attempts] using ih
    | close c => simpa [delivered, attempts] using ih

theorem delivered_eq_nil (p : Conn) (effs : List Effect)
    (h : ∀ m e, Effect.writeMessage p m e ∉ effs) : delivered p effs = [] := by
  have h1 := delivered_sublist_attempts p effs
  rw [attempts_eq_nil p effs h] at h1
  exact List.eq_nil_of_sublist_nil h1

/-- No key that is still to be yielded has been written yet. -/
theorem broadcastLoop_no_write (M : Message) (w : Conn → WriteResult) (order m : List Conn)
    (p : Conn) (hp : p ∉ order ∨ p ∉ m) :
    ∀ msg e, Effect.writeMessage p msg e ∉ (broadcastLoop M w order m).2.1 := by
  intro msg e hmem
  obtain ⟨h1, h2, _, _⟩ := mem_broadcastLoop_effects M w order m p msg e hmem
  rcases hp with hp | hp
  · exact hp h2
  · exact hp h1

/-- Each key is written at most once in one pass of the loop. -/
theorem broadcastLoop_attempts_le (M : Message) (w : Conn → WriteResult) (order m : List Conn)
    (p : Conn) (hn : order.Nodup) :
    attempts p (broadcastLoop M w order m).2.1 = []
      ∨ attempts p (broadcastLoop M w order m).2.1 = [M] := by
  induction order generalizing m with
  | nil => exact Or.inl rfl
  | cons client rest ih =>
    have hc : client ∉ rest := (List.nodup_cons.mp hn).1
    have hr : rest.Nodup := (List.nodup_cons.mp hn).2
    by_cases hm : client ∈ m
    · by_cases hcp : client = p
      · subst hcp
        cases hw : w client with
        | ok =>
          rw [broadcastLoop_ok M w client rest m hm hw]
          right
          simp [attempts, attempts_eq_nil client _
            (broadcastLoop_no_write M w rest m client (Or.inl hc))]
        | err =>
          rw [broadcastLoop_err M w client rest m hm hw]
          right
          simp [attempts, attempts_eq_nil client _
            (broadcastLoop_no_write M w rest _ client (Or.inl hc))]
        | noReturn =>
          rw [broadcastLoop_noReturn M w client rest m hm hw]
          right
          simp [attempts]
      · cases hw : w client with
        | ok =>
          rw [broadcastLoop_ok M w client rest m hm hw]
          simpa [attempts, hcp] using ih m hr
        | err =>
          rw [broadcastLoop_err M w client rest m hm hw]
          simpa [attempts, hcp] using ih _ hr
        | noReturn =>
          rw [broadcastLoop_noReturn M w client rest m hm hw]
          left
          simp [attempts, hcp]
    · rw [broadcastLoop_skip M w client rest m hm]
      exact ih m hr

/-- A pass of the loop that runs to its end writes each key of the map once. -/
theorem broadcastLoop_attempts (M : Message) (w : Conn → WriteResult) (order m : List Conn)
    (p : Conn) (hn : order.Nodup) (ho : p ∈ order) (hp : p ∈ m)
    (hret : (broadcastLoop M w order m).2.2 = true) :
    attempts p (broadcastLoop M w order m).2.1 = [M] := by
  rcases broadcastLoop_attempts_le M w order m p hn with h | h
  · have hmem := broadcastLoop_written M w order m p ho hp hret
    have : ∀ (effs : List Effect), Effect.writeMessage p M (w p) ∈ effs →
        attempts p effs ≠ [] := by
      intro effs
      induction effs with
      | nil => intro hx; cases hx
      | cons x xs ihx =>
        intro hx
        cases x with
        | writeMessage c m' e =>
          by_cases hcp : c = p
          · simp [attempts, hcp]
          · rcases List.mem_cons.mp hx with hx | hx
            · injection hx with h1 _ _
              exact absurd h1.symm hcp
            · simpa [attempts, hcp] using ihx hx
        | println t =>
          rcases List.mem_cons.mp hx with hx | hx
          · cases hx
          · simpa [attempts] using ihx hx
        | close c =>
          rcases List.mem_cons.mp hx with hx | hx
          · cases hx
          · simpa [attempts] using ihx hx
    exact absurd h (this _ hmem)
  · exact h

/-- A pass of the loop that runs to its end delivers the payload once to each
key of the map whose write succeeds. -/
theorem broadcastLoop_delivered (M : Message) (w : Conn → WriteResult) (order m : List Conn)
    (p : Conn) (hn : order.Nodup) (ho : p ∈ order) (hp : p ∈ m) (hw : w p = WriteResult.ok)
    (hret : (broadcastLoop M w order m).2.2 = true) :
    delivered p (broadcastLoop M w order m).2.1 = [M] := by
  induction order generalizing m with
  | nil => cases ho
  | cons client rest ih =>
    have hc : client ∉ rest := (List.nodup_cons.mp hn).1
    have hr : rest.Nodup := (List.nodup_cons.mp hn).2
    by_cases hm : client ∈ m
    · by_cases hcp : client = p
      · subst hcp
        rw [broadcastLoop_ok M w client rest m hm hw]
        simp [delivered, delivered_eq_nil client _
          (broadcastLoop_no_write M w rest m client (Or.inl hc))]
      · have hpc : p ≠ client := fun h => hcp h.symm
        have hor : p ∈ rest := (List.mem_cons.mp ho).resolve_left hpc
        cases hwc : w client with
        | ok =>
          rw [broadcastLoop_ok M w client rest m hm hwc] at hret ⊢
          simpa [delivered, hcp] using ih m hr hor hp hret
        | err =>
          rw [broadcastLoop_err M w client rest m hm hwc] at hret ⊢
          simpa [delivered, hcp] using
            ih _ hr hor ((mem_mapDelete _ _ _).mpr ⟨hp, hpc⟩) hret
        | noReturn =>
          rw [broadcastLoop_noReturn M w client rest m hm hwc] at hret
          cases hret
    · rw [broadcastLoop_skip M w client rest m hm] at hret ⊢
      have hpc : p ≠ client := fun h => hm (h ▸ hp)
      exact ih m hr ((List.mem_cons.mp ho).resolve_left hpc) hp hret

/-- The loop only removes keys, keeping the others in place. -/
theorem broadcastLoop_sublist (M : Message) (w : Conn → WriteResult) (order m : List Conn) :
    (broadcastLoop M w order m).1.Sublist m := by
  induction order generalizing m with
  | nil => exact List.Sublist.refl m
  | cons client rest ih =>
    by_cases hm : client ∈ m
    · cases hw : w client with
      | ok =>
        rw [broadcastLoop_ok M w client rest m hm hw]
        exact ih m
      | err =>
        rw [broadcastLoop_err M w client rest m hm hw]
        exact (ih _).trans (List.filter_sublist m)
      | noReturn =>
        rw [broadcastLoop_noReturn M w client rest m hm hw]
    · rw [broadcastLoop_skip M w client rest m hm]
      exact ih m

/-! ## One step of the hub loop -/

theorem runStep_register (s : ChatRoom) (env : Env) (c : Conn) :
    s.runStep env (Request.register c) = ⟨⟨mapInsert s.clients c⟩, [], true⟩ := rfl

theorem runStep_unregister (s : ChatRoom) (env : Env) (c : Conn) :
    s.runStep env (Request.unregister c) = ⟨⟨mapDelete s.clients c⟩, [], true⟩ := rfl

theorem runStep_broadcast (s : ChatRoom) (env : Env) (M : Message) :
    s.runStep env (Request.broadcast M)
      = ⟨⟨(broadcastLoop M env.write (rangeOrder env.order s.clients) s.clients).1⟩,
          (broadcastLoop M env.write (rangeOrder env.order s.clients) s.clients).2.1,
          (broadcastLoop M env.write (rangeOrder env.order s.clients) s.clients).2.2⟩ := rfl

/-- A member after a step was a member before it or has just been registered. -/
theorem runStep_subset (s : ChatRoom) (env : Env) (req : Request) (q : Conn)
    (h : q ∈ (s.runStep env req).1.clients) : q ∈ s.clients ∨ req = Request.register q := by
  cases req with
  | register client =>
    rw [runStep_register] at h
    rcases (mem_mapInsert _ _ _).mp h with h | h
    · exact Or.inl h
    · exact Or.inr (by rw [h])
  | unregister client =>
    rw [runStep_unregister] at h
    exact Or.inl ((mem_mapDelete _ _ _).mp h).1
  | broadcast M =>
    rw [runStep_broadcast] at h
    exact Or.inl (broadcastLoop_subset _ _ _ _ _ h)

/-- A member stays a member through a step that neither unregisters it nor
broadcasts with a failed write to it. -/
theorem runStep_kept (s : ChatRoom) (env : Env) (req : Request) (q : Conn)
    (hq : q ∈ s.clients) (hu : req ≠ Request.unregister q)
    (hw : (∃ M, req = Request.broadcast M) → env.write q ≠ WriteResult.err) :
    q ∈ (s.runStep env req).1.clients := by
  cases req with
  | register client =>
    rw [runStep_register]
    exact (mem_mapInsert _ _ _).mpr (Or.inl hq)
  | unregister client =>
    rw [runStep_unregister]
    refine (mem_mapDelete _ _ _).mpr ⟨hq, ?_⟩
    intro h
    exact hu (by rw [h])
  | broadcast M =>
    rw [runStep_broadcast]
    exact broadcastLoop_kept _ _ _ _ _ hq (hw ⟨M, rfl⟩)

theorem mem_runStep_effects (s : ChatRoom) (env : Env) (req : Request)
    (c : Conn) (msg : Message) (e : WriteResult)
    (h : Effect.writeMessage c msg e ∈ (s.runStep env req).2) :
    c ∈ s.clients ∧ req = Request.broadcast msg ∧ e = env.write c := by
  cases req with
  | register client => simp [runStep_register] at h
  | unregister client => simp [runStep_unregister] at h
  | broadcast M =>
    rw [runStep_broadcast] at h
    obtain ⟨h1, _, h3, h4⟩ := mem_broadcastLoop_effects _ _ _ _ _ _ _ h
    exact ⟨h1, by rw [h3], h4⟩

theorem runStep_broadcast_attempts_le (s : ChatRoom) (env : Env) (M : Message) (p : Conn)
    (hn : s.clients.Nodup) :
    attempts p (s.runStep env (Request.broadcast M)).2 = []
      ∨ attempts p (s.runStep env (Request.broadcast M)).2 = [M] := by
  rw [runStep_broadcast]
  exact broadcastLoop_attempts_le _ _ _ _ p (nodup_rangeOrder _ _ hn)

theorem runStep_broadcast_attempts (s : ChatRoom) (env : Env) (M : Message) (p : Conn)
    (hn : s.clients.Nodup) (hp : p ∈ s.clients)
    (hret : (s.runStep env (Request.broadcast M)).3 = true) :
    attempts p (s.runStep env (Request.broadcast M)).2 = [M] := by
  rw [runStep_broadcast] at hret ⊢
  exact broadcastLoop_attempts _ _ _ _ p (nodup_rangeOrder _ _ hn)
    ((mem_rangeOrder _ _ _).mpr hp) hp hret

theorem runStep_broadcast_delivered (s : ChatRoom) (env : Env) (M : Message) (p : Conn)
    (hn : s.clients.Nodup) (hp : p ∈ s.clients) (hw : env.write p = WriteResult.ok)
    (hret : (s.runStep env (Request.broadcast M)).3 = true) :
    delivered p (s.runStep env (Request.broadcast M)).2 = [M] := by
  rw [runStep_broadcast] at hret ⊢
  exact broadcastLoop_delivered _ _ _ _ p (nodup_rangeOrder _ _ hn)
    ((mem_rangeOrder _ _ _).mpr hp) hp hw hret

/-- A broadcast step runs to its end exactly when the write to every member
returns. -/
theorem runStep_broadcast_returned (s : ChatRoom) (env : Env) (M : Message) :
    (s.runStep env (Request.broadcast M)).3 = true
      ↔ ∀ c, c ∈ s.clients → env.write c ≠ WriteResult.noReturn := by
  rw [runStep_broadcast]
  constructor
  · intro h c hc
    exact broadcastLoop_returned_imp _ _ _ _ h c ((mem_rangeOrder _ _ _).mpr hc) hc
  · intro h
    exact broadcastLoop_returned _ _ _ _ h

theorem nodup_runStep (s : ChatRoom) (env : Env) (req : Request) (hn : s.clients.Nodup) :
    (s.runStep env req).1.clients.Nodup := by
  cases req with
  | register client => exact nodup_mapInsert _ _ hn
  | unregister client => exact nodup_mapDelete _ _ hn
  | broadcast M =>
    rw [runStep_broadcast]
    exact (broadcastLoop_sublist _ _ _ _).nodup hn

/-! ## Sequences of steps -/

theorem run_nil (s : ChatRoom) : s.run [] = ⟨s, [], true⟩ := rfl

theorem run_cons_returned (s : ChatRoom) (x : Request × Env) (rest : List (Request × Env))
    (h : (s.runStep x.2 x.1).3 = true) :
    s.run (x :: rest)
      = ⟨(((s.runStep x.2 x.1).1).run rest).1,
          (s.runStep x.2 x.1).2 ++ (((s.runStep x.2 x.1).1).run rest).2,
          (((s.runStep x.2 x.1).1).run rest).3⟩ := by
  simp only [ChatRoom.run]
  rw [if_pos h]

theorem run_cons_stalled (s : ChatRoom) (x : Request × Env) (rest : List (Request × Env))
    (h : (s.runStep x.2 x.1).3 = false) :
    s.run (x :: rest) = s.runStep x.2 x.1 := by
  simp only [ChatRoom.run]
  rw [if_neg (by rw [h]; simp)]

theorem run_singleton (s : ChatRoom) (x : Request × Env) :
    s.run [x] = s.runStep x.2 x.1 := by
  cases h : (s.runStep x.2 x.1).3 with
  | true =>
    rw [run_cons_returned s x [] h, run_nil]
    cases hr : s.runStep x.2 x.1 with
    | mk room effects returned =>
      rw [hr] at h
      simp only at h
      simp [h]
  | false => exact run_cons_stalled s x [] h

theorem run_append_returned (s : ChatRoom) (a b : List (Request × Env))
    (h : (s.run a).3 = true) :
    s.run (a ++ b)
      = ⟨(((s.run a).1).run b).1, (s.run a).2 ++ (((s.run a).1).run b).2,
          (((s.run a).1).run b).3⟩ := by
  induction a generalizing s with
  | nil => simp [run_nil]
  | cons x xs ih =>
    cases hx : (s.runStep x.2 x.1).3 with
    | true =>
      rw [run_cons_returned s x xs hx] at h ⊢
      rw [List.cons_append, run_cons_returned s x _ hx, ih _ h]
      simp [List.append_assoc]
    | false =>
      rw [run_cons_stalled s x xs hx, hx] at h
      cases h

theorem run_append_stalled (s : ChatRoom) (a b : List (Request × Env))
    (h : (s.run a).3 = false) : s.run (a ++ b) = s.run a := by
  induction a generalizing s with
  | nil => rw [run_nil] at h; cases h
  | cons x xs ih =>
    cases hx : (s.runStep x.2 x.1).3 with
    | true =>
      rw [run_cons_returned s x xs hx] at h ⊢
      rw [List.cons_append, run_cons_returned s x _ hx, ih _ h]
    | false =>
      rw [List.cons_append, run_cons_stalled s x xs hx, run_cons_stalled s x _ hx]

theorem run_returned_prefix (s : ChatRoom) (a b : List (Request × Env))
    (h : (s.run (a ++ b)).3 = true) : (s.run a).3 = true := by
  cases ha : (s.run a).3 with
  | true => rfl
  | false =>
    rw [run_append_stalled s a b ha, ha] at h
    cases h

theorem nodup_run (s : ChatRoom) (tr : List (Request × Env)) (hn : s.clients.Nodup) :
    (s.run tr).1.clients.Nodup := by
  induction tr generalizing s with
  | nil => exact hn
  | cons x xs ih =>
    cases hx : (s.runStep x.2 x.1).3 with
    | true =>
      rw [run_cons_returned s x xs hx]
      exact ih _ (nodup_runStep s x.2 x.1 hn)
    | false =>
      rw [run_cons_stalled s x xs hx]
      exact nodup_runStep s x.2 x.1 hn

/-- The hub processes every request when every write returns. -/
theorem run_returned (s : ChatRoom) (tr : List (Request × Env))
    (h : ∀ x ∈ tr, ∀ c, x.2.write c ≠ WriteResult.noReturn) : (s.run tr).3 = true := by
  induction tr generalizing s with
  | nil => rfl
  | cons x xs ih =>
    have hx : (s.runStep x.2 x.1).3 = true := by
      obtain ⟨req, env⟩ := x
      cases req with
      | register c => rfl
      | unregister c => rfl
      | broadcast M =>
        exact (runStep_broadcast_returned s env M).mpr
          (fun c _ => h _ (List.mem_cons_self _ _) c)
    rw [run_cons_returned s x xs hx]
    exact ih _ (fun y hy => h y (List.mem_cons_of_mem _ hy))

/-- A participant that is not a member and is not registered receives no write. -/
theorem run_silent (s : ChatRoom) (p : Conn) (tr : List (Request × Env))
    (hp : p ∉ s.clients) (hj : ∀ x ∈ tr, x.1 ≠ Request.register p) :
    p ∉ (s.run tr).1.clients ∧ ∀ m e, Effect.writeMessage p m e ∉ (s.run tr).2 := by
  induction tr generalizing s with
  | nil => exact ⟨hp, by simp [run_nil]⟩
  | cons x xs ih =>
    have hx : x.1 ≠ Request.register p := hj x (List.mem_cons_self _ _)
    have hp' : p ∉ (s.runStep x.2 x.1).1.clients := by
      intro h
      rcases runStep_subset s x.2 x.1 p h with h | h
      · exact hp h
      · exact hx h
    have hstep : ∀ m e, Effect.writeMessage p m e ∉ (s.runStep x.2 x.1).2 :=
      fun m e h => hp (mem_runStep_effects _ _ _ _ _ _ h).1
    cases hret : (s.runStep x.2 x.1).3 with
    | true =>
      rw [run_cons_returned s x xs hret]
      obtain ⟨h1, h2⟩ := ih _ hp' (fun y hy => hj y (List.mem_cons_of_mem _ hy))
      refine ⟨h1, ?_⟩
      intro m e hm
      rcases List.mem_append.mp hm with h | h
      · exact hstep m e h
      · exact h2 m e h
    | false =>
      rw [run_cons_stalled s x xs hret]
      exact ⟨hp', hstep⟩

/-- The payloads written to one participant are among the payloads broadcast, in
the order of the broadcasts. -/
theorem attempts_sublist_payloads (s : ChatRoom) (p : Conn) (tr : List (Request × Env))
    (hn : s.clients.Nodup) :
    (attempts p (s.run tr).2).Sublist (payloads tr) := by
  induction tr generalizing s with
  | nil => simp [run_nil, attempts, payloads]
  | cons x xs ih =>
    have hstep : (attempts p (s.runStep x.2 x.1).2).Sublist (payloads [x]) := by
      obtain ⟨req, env⟩ := x
      cases req with
      | register client => simp [runStep_register, attempts, payloads]
      | unregister client => simp [runStep_unregister, attempts, payloads]
      | broadcast M =>
        rcases runStep_broadcast_attempts_le s env M p hn with h | h
        · simp only []
          rw [h]
          exact List.nil_sublist _
        · simp only [payloads]
          rw [h]
    have hpay : payloads (x :: xs) = payloads [x] ++ payloads xs := by
      obtain ⟨req, env⟩ := x
      cases req <;> simp [payloads]
    rw [hpay]
    cases hret : (s.runStep x.2 x.1).3 with
    | true =>
      rw [run_cons_returned s x xs hret]
      simp only []
      rw [attempts_append]
      exact hstep.append (ih _ (nodup_runStep s x.2 x.1 hn))
    | false =>
      rw [run_cons_stalled s x xs hret]
      exact hstep.trans (List.sublist_append_left _ _)

/-- A member that is neither unregistered nor hit by a failed write is written
every payload of the broadcasts that the hub processes, once each and in
order. -/
theorem run_member_attempts (s : ChatRoom) (p : Conn) (tr : List (Request × Env))
    (hn : s.clients.Nodup) (hp : p ∈ s.clients)
    (h : ∀ x ∈ tr, x.1 ≠ Request.unregister p
      ∧ ((∃ m, x.1 = Request.broadcast m) → x.2.write p = WriteResult.ok))
    (hret : (s.run tr).3 = true) :
    attempts p (s.run tr).2 = payloads tr ∧ delivered p (s.run tr).2 = payloads tr := by
  induction tr generalizing s with
  | nil => simp [run_nil, attempts, delivered, payloads]
  | cons x xs ih =>
    have hx := h x (List.mem_cons_self _ _)
    have hstep : (s.runStep x.2 x.1).3 = true := by
      have := run_returned_prefix s [x] xs hret
      rwa [run_singleton] at this
    have hp' : p ∈ (s.runStep x.2 x.1).1.clients :=
      runStep_kept s x.2 x.1 p hp hx.1 (fun hb => by rw [hx.2 hb]; simp)
    rw [run_cons_returned s x xs hstep] at hret ⊢
    obtain ⟨ih1, ih2⟩ := ih _ (nodup_runStep s x.2 x.1 hn) hp'
      (fun y hy => h y (List.mem_cons_of_mem _ hy)) hret
    simp only []
    rw [attempts_append, delivered_append, ih1, ih2]
    obtain ⟨req, env⟩ := x
    cases req with
    | register client => simp [runStep_register, attempts, delivered, payloads]
    | unregister client => simp [runStep_unregister, attempts, delivered, payloads]
    | broadcast M =>
      have hw : env.write p = WriteResult.ok := hx.2 ⟨M, rfl⟩
      simp only [payloads]
      rw [runStep_broadcast_attempts s env M p hn hp hstep,
        runStep_broadcast_delivered s env M p hn hp hw hstep]
      simp

/-! ## Hubs with one member -/

theorem rangeOrder_singleton (ks : List Nat) (c : Conn) : rangeOrder ks [c] = [c] :=
  List.perm_singleton.mp (rangeOrder_perm ks [c])

theorem runStep_attempts_nil (s : ChatRoom) (env : Env) (req : Request) (p : Conn)
    (hp : p ∉ s.clients) : attempts p (s.runStep env req).2 = [] :=
  attempts_eq_nil p _ (fun _ _ hm => hp (mem_runStep_effects s env req _ _ _ hm).1)

/-- A hub with a single member makes the write to it, however the write ends. -/
theorem runStep_broadcast_single (env : Env) (M : Message) (c q : Conn) :
    attempts q ((ChatRoom.mk [c]).runStep env (Request.broadcast M)).2
      = if q = c then [M] else [] := by
  rw [runStep_broadcast]
  simp only [rangeOrder_singleton]
  have hm : c ∈ [c] := List.mem_singleton.mpr rfl
  by_cases hqc : q = c
  · subst hqc
    cases hw : env.write q with
    | ok => rw [broadcastLoop_ok M env.write q [] [q] hm hw]; simp [attempts, broadcastLoop_nil]
    | err => rw [broadcastLoop_err M env.write q [] [q] hm hw]; simp [attempts, broadcastLoop_nil]
    | noReturn => rw [broadcastLoop_noReturn M env.write q [] [q] hm hw]; simp [attempts]
  · have hcq : ¬ c = q := fun h => hqc h.symm
    cases hw : env.write c with
    | ok =>
      rw [broadcastLoop_ok M env.write c [] [c] hm hw]
      simp [attempts, broadcastLoop_nil, hqc, hcq]
    | err =>
      rw [broadcastLoop_err M env.write c [] [c] hm hw]
      simp [attempts, broadcastLoop_nil, hqc, hcq]
    | noReturn =>
      rw [broadcastLoop_noReturn M env.write c [] [c] hm hw]
      simp [attempts, hqc, hcq]

/-! ## The connection handler -/

/-- C2 (fault isolation): when the write to member `f` fails during the
broadcast of `M` and the writes to all other members succeed, every other member
has `M` written to it, `f` is no longer a member when the step ends and the
members are exactly the others, the step performs nothing but writes of `M`, the
error print and the close of `f` (no error goes back to the broadcaster) and
runs to its end, and a following broadcast of `M'` is written to the remaining
members only, at most once each, and exactly once each when that step runs to
its end.  Scenario B is the last part: after `Join(p1); Join(p2)` on the empty
hub, a broadcast of `x` whose write to `p1` fails reaches `p2`, removes `p1`, and
a following broadcast of `y` is written to `p2` only. -/
theorem fault_isolation (s : ChatRoom) (env env' : Env) (M M' : Message) (f : Conn)
    (hn : s.clients.Nodup) (hf : f ∈ s.clients) (hfail : env.write f = WriteResult.err)
    (hok : ∀ q, q ∈ s.clients → q ≠ f → env.write q = WriteResult.ok) :
    (∀ q, q ∈ s.clients → q ≠ f →
      delivered q (s.runStep env (Request.broadcast M)).2 = [M]) ∧
    f ∉ (s.runStep env (Request.broadcast M)).1.clients ∧
    (∀ q, q ∈ (s.runStep env (Request.broadcast M)).1.clients ↔ q ∈ s.clients ∧ q ≠ f) ∧
    (∀ x, x ∈ (s.runStep env (Request.broadcast M)).2 →
      (∃ c e, x = Effect.writeMessage c M e)
        ∨ x = Effect.println "Error broadcasting message:" ∨ x = Effect.close f) ∧
    (s.runStep env (Request.broadcast M)).3 = true ∧
    (∀ q, attempts q
          (((s.runStep env (Request.broadcast M)).1).runStep env' (Request.broadcast M')).2 = []
      ∨ (attempts q
          (((s.runStep env (Request.broadcast M)).1).runStep env' (Request.broadcast M')).2
            = [M'] ∧ q ∈ s.clients ∧ q ≠ f)) ∧
    ((((s.runStep env (Request.broadcast M)).1).runStep env' (Request.broadcast M')).3 = true →
      ∀ q, attempts q
        (((s.runStep env (Request.broadcast M)).1).runStep env' (Request.broadcast M')).2
      = if q ∈ s.clients ∧ q ≠ f then [M'] else []) ∧
    (∀ p1 p2 x y e1 e2 ex ey, p1 ≠ p2 → ex.write p1 = WriteResult.err →
      ex.write p2 = WriteResult.ok →
      delivered p2 (NewChatRoom.run [(Request.register p1, e1), (Request.register p2, e2),
        (Request.broadcast x, ex)]).2 = [x] ∧
      p1 ∉ (NewChatRoom.run [(Request.register p1, e1), (Request.register p2, e2),
        (Request.broadcast x, ex)]).1.clients ∧
      ∀ q, attempts q (((NewChatRoom.run [(Request.register p1, e1),
          (Request.register p2, e2), (Request.broadcast x, ex)]).1).runStep ey
            (Request.broadcast y)).2 = if q = p2 then [y] else []) := by
  have hret : (s.runStep env (Request.broadcast M)).3 = true := by
    rw [runStep_broadcast_returned]
    intro c hc
    by_cases hcf : c = f
    · rw [hcf, hfail]; simp
    · rw [hok c hc hcf]; simp
  have hmem : ∀ q, q ∈ (s.runStep env (Request.broadcast M)).1.clients
      ↔ q ∈ s.clients ∧ q ≠ f := by
    intro q
    constructor
    · intro h
      have hq : q ∈ s.clients := by
        rcases runStep_subset s env _ q h with h1 | h1
        · exact h1
        · cases h1
      refine ⟨hq, ?_⟩
      intro hqf
      rw [hqf, runStep_broadcast] at h
      rw [runStep_broadcast] at hret
      exact broadcastLoop_evicted _ _ _ _ f ((mem_rangeOrder _ _ _).mpr hf) hfail hret h
    · rintro ⟨h1, h2⟩
      exact runStep_kept s env _ q h1 (by simp) (fun _ => by rw [hok q h1 h2]; simp)
  have hnd' := nodup_runStep s env (Request.broadcast M) hn
  refine ⟨?_, ?_, hmem, ?_, hret, ?_, ?_, ?_⟩
  · intro q hq hqf
    exact runStep_broadcast_delivered s env M q hn hq (hok q hq hqf) hret
  · intro h
    exact ((hmem f).mp h).2 rfl
  · intro x hx
    rw [runStep_broadcast] at hx
    obtain ⟨c, hcm, hxc⟩ := broadcastLoop_effects_visit _ _ _ _ x hx
    by_cases hcf : c = f
    · subst hcf
      simp only [visitEffects, hfail, List.mem_cons, List.mem_singleton] at hxc
      rcases hxc with h | h | h | h
      · exact Or.inl ⟨c, _, h⟩
      · exact Or.inr (Or.inl h)
      · exact Or.inr (Or.inr h)
      · cases h
    · simp only [visitEffects, hok c hcm hcf, List.mem_singleton] at hxc
      exact Or.inl ⟨c, _, hxc⟩
  · intro q
    rcases runStep_broadcast_attempts_le _ env' M' q hnd' with h | h
    · exact Or.inl h
    · refine Or.inr ⟨h, ?_⟩
      by_contra hq
      have hq' : q ∉ (s.runStep env (Request.broadcast M)).1.clients :=
        fun hin => hq ((hmem q).mp hin)
      have hnil := runStep_attempts_nil _ env' (Request.broadcast M') q hq'
      rw [hnil] at h
      cases h
  · intro hret' q
    by_cases hq : q ∈ s.clients ∧ q ≠ f
    · rw [if_pos hq]
      exact runStep_broadcast_attempts _ env' M' q hnd' ((hmem q).mpr hq) hret'
    · rw [if_neg hq]
      have hq' : q ∉ (s.runStep env (Request.broadcast M)).1.clients :=
        fun hin => hq ((hmem q).mp hin)
      exact runStep_attempts_nil _ env' (Request.broadcast M') q hq'
  · intro p1 p2 x y e1 e2 ex ey hne hw1 hw2
    have hne' : ¬ p2 = p1 := fun h => hne h.symm
    have hnd : ([p1, p2] : List Conn).Nodup := by simp [hne]
    have hstate : NewChatRoom.run [(Request.register p1, e1), (Request.register p2, e2)]
        = ⟨⟨[p1, p2]⟩, [], true⟩ := by
      simp [ChatRoom.run, ChatRoom.runStep, NewChatRoom, mapInsert, hne']
    have hrun : NewChatRoom.run [(Request.register p1, e1), (Request.register p2, e2),
        (Request.broadcast x, ex)]
        = ((ChatRoom.mk [p1, p2]).runStep ex (Request.broadcast x)) := by
      have := run_append_returned NewChatRoom
        [(Request.register p1, e1), (Request.register p2, e2)]
        [(Request.broadcast x, ex)] (by rw [hstate])
      simp only [List.cons_append, List.nil_append] at this
      rw [this, hstate]
      simp only [List.nil_append]
      rw [run_singleton]
    have hret2 : ((ChatRoom.mk [p1, p2]).runStep ex (Request.broadcast x)).3 = true := by
      rw [runStep_broadcast_returned]
      intro c hc
      simp only [List.mem_cons, List.mem_singleton, List.not_mem_nil, or_false] at hc
      rcases hc with h | h
      · rw [h, hw1]; simp
      · rw [h, hw2]; simp
    have hcl : ((ChatRoom.mk [p1, p2]).runStep ex (Request.broadcast x)).1 = ⟨[p2]⟩ := by
      have hsub := broadcastLoop_sublist x ex.write (rangeOrder ex.order [p1, p2]) [p1, p2]
      have h1 : p1 ∉ ((ChatRoom.mk [p1, p2]).runStep ex (Request.broadcast x)).1.clients := by
        rw [runStep_broadcast] at hret2 ⊢
        exact broadcastLoop_evicted _ _ _ _ p1
          ((mem_rangeOrder _ _ _).mpr (by simp)) hw1 hret2
      have h2 : p2 ∈ ((ChatRoom.mk [p1, p2]).runStep ex (Request.broadcast x)).1.clients :=
        runStep_kept _ ex _ p2 (by simp) (by simp) (fun _ => by rw [hw2]; simp)
      rw [runStep_broadcast] at h1 h2 ⊢
      simp only at h1 h2 ⊢
      generalize (broadcastLoop x ex.write (rangeOrder ex.order [p1, p2]) [p1, p2]).1 = l
        at hsub h1 h2
      congr 1
      cases hsub with
      | cons _ h =>
        cases h with
        | cons _ h' => cases h'; cases h2
        | cons₂ _ h' => cases h'; rfl
      | cons₂ _ h => exact absurd (List.mem_cons_self _ _) h1
    rw [hrun]
    refine ⟨?_, ?_, ?_⟩
    · exact runStep_broadcast_delivered _ ex x p2 hnd (by simp) hw2 hret2
    · rw [hcl]
      simpa using hne
    · intro q
      rw [hcl]
      exact runStep_broadcast_single ey y p2 q

theorem fault_isolation_witness :
    ([1, 2, 3] : List Conn).Nodup ∧ (1 : Conn) ∈ [1, 2, 3]
      ∧ envFail1.write 1 = WriteResult.err ∧
    delivered 2 ((ChatRoom.mk [1, 2, 3]).runStep envFail1 (Request.broadcast [120])).2
      = [[120]] ∧
    (1 : Conn) ∉ ((ChatRoom.mk [1, 2, 3]).runStep envFail1 (Request.broadcast [120])).1.clients ∧
    attempts 1 ((((ChatRoom.mk [1, 2, 3]).runStep envFail1 (Request.broadcast [120])).1).runStep
      envOk (Request.broadcast [121])).2 = [] ∧
    attempts 3 ((((ChatRoom.mk [1, 2, 3]).runStep envFail1 (Request.broadcast [120])).1).runStep
      envOk (Request.broadcast [121])).2 = [[121]] ∧
    attempts 2 (((NewChatRoom.run [(Request.register 1, envOk), (Request.register 2, envOk),
      (Request.broadcast [120], envFail1)]).1).runStep envOk (Request.broadcast [121])).2
      = [[121]] :=
  have h := fault_isolation ⟨[1, 2, 3]⟩ envFail1 envOk [120] [121] 1 (by decide) (by decide)
    (by decide) (by
      intro q hq hne
      have : q = 2 ∨ q = 3 := by simpa [hne] using hq
      rcases this with h | h <;> subst h <;> rfl)
  ⟨by decide, by decide, by decide, h.1 2 (by decide) (by decide), h.2.1,
    h.2.2.2.2.2.2.1 (by decide) 1, h.2.2.2.2.2.2.1 (by decide) 3,
    (h.2.2.2.2.2.2.2 1 2 [120] [121] envOk envOk envFail1 envOk (by decide) (by decide)
      (by decide)).2.2 2⟩

/-- C3 (post-leave silence): in every request sequence with a `Leave(p)` and no
`Join(p)` after it, whatever the hub does after the leave contains no write to
`p`; and once the hub has processed the leave, the requests after it make no
write to `p` and `p` is not a member at the end.  Scenario C:
`Join(p1); Leave(p1); Broadcast(z)` on the empty hub performs no effect at
all. -/
theorem post_leave_silence (s : ChatRoom) (p : Conn) (e : Env)
    (pre rest : List (Request × Env))
    (hj : ∀ x ∈ rest, x.1 ≠ Request.register p) :
    (∃ later, (s.run (pre ++ (Request.unregister p, e) :: rest)).2
        = (s.run (pre ++ [(Request.unregister p, e)])).2 ++ later
      ∧ (∀ m r, Effect.writeMessage p m r ∉ later) ∧ attempts p later = []) ∧
    ((s.run (pre ++ [(Request.unregister p, e)])).3 = true →
      (s.run (pre ++ (Request.unregister p, e) :: rest)).2
        = (s.run (pre ++ [(Request.unregister p, e)])).2
          ++ (((s.run (pre ++ [(Request.unregister p, e)])).1).run rest).2 ∧
      (∀ m r, Effect.writeMessage p m r
        ∉ (((s.run (pre ++ [(Request.unregister p, e)])).1).run rest).2) ∧
      attempts p (((s.run (pre ++ [(Request.unregister p, e)])).1).run rest).2 = [] ∧
      p ∉ (s.run (pre ++ (Request.unregister p, e) :: rest)).1.clients) ∧
    (∀ p1 z e1 e2 e3, (NewChatRoom.run [(Request.register p1, e1),
      (Request.unregister p1, e2), (Request.broadcast z, e3)]).2 = []) := by
  have hsplit : pre ++ (Request.unregister p, e) :: rest
      = (pre ++ [(Request.unregister p, e)]) ++ rest := by simp
  have hproc : (s.run (pre ++ [(Request.unregister p, e)])).3 = true →
      (s.run (pre ++ (Request.unregister p, e) :: rest)).2
        = (s.run (pre ++ [(Request.unregister p, e)])).2
          ++ (((s.run (pre ++ [(Request.unregister p, e)])).1).run rest).2 ∧
      (∀ m r, Effect.writeMessage p m r
        ∉ (((s.run (pre ++ [(Request.unregister p, e)])).1).run rest).2) ∧
      attempts p (((s.run (pre ++ [(Request.unregister p, e)])).1).run rest).2 = [] ∧
      p ∉ (s.run (pre ++ (Request.unregister p, e) :: rest)).1.clients := by
    intro hret
    have hpre : (s.run pre).3 = true := run_returned_prefix s pre _ hret
    have hgone : p ∉ (s.run (pre ++ [(Request.unregister p, e)])).1.clients := by
      rw [run_append_returned s pre _ hpre, run_singleton, runStep_unregister]
      simp [mem_mapDelete]
    have hs := run_silent _ p rest hgone hj
    refine ⟨?_, hs.2, attempts_eq_nil _ _ hs.2, ?_⟩
    · rw [hsplit, run_append_returned s _ rest hret]
    · rw [hsplit, run_append_returned s _ rest hret]
      exact hs.1
  refine ⟨?_, hproc, ?_⟩
  · cases hret : (s.run (pre ++ [(Request.unregister p, e)])).3 with
    | true =>
      obtain ⟨h1, h2, h3, _⟩ := hproc hret
      exact ⟨_, h1, h2, h3⟩
    | false =>
      refine ⟨[], ?_, by simp, rfl⟩
      rw [hsplit, run_append_stalled s _ rest hret]
      simp
  · intro p1 z e1 e2 e3
    simp [ChatRoom.run, ChatRoom.runStep, NewChatRoom, mapInsert, mapDelete, rangeOrder_nil,
      broadcastLoop]

theorem post_leave_silence_witness :
    Effect.writeMessage 1 [122] WriteResult.ok
      ∉ (((NewChatRoom.run ([(Request.register 1, envOk), (Request.register 2, envOk)]
          ++ [(Request.unregister 1, envOk)])).1).run
            [(Request.broadcast [122], envOk), (Request.unregister 2, envOk)]).2 ∧
    (1 : Conn) ∉ (NewChatRoom.run ([(Request.register 1, envOk), (Request.register 2, envOk)]
          ++ (Request.unregister 1, envOk)
            :: [(Request.broadcast [122], envOk), (Request.unregister 2, envOk)])).1.clients :=
  have h := post_leave_silence NewChatRoom 1 envOk
    [(Request.register 1, envOk), (Request.register 2, envOk)]
    [(Request.broadcast [122], envOk), (Request.unregister 2, envOk)]
    (by
      intro x hx
      simp only [List.mem_cons, List.mem_singleton, List.not_mem_nil, or_false] at hx
      rcases hx with h | h <;> rw [h] <;> simp)
  ⟨(h.2.1 (by decide)).2.1 _ _, (h.2.1 (by decide)).2.2.2⟩

/-- C5 (idempotent leave): unregistering a participant that is not a member
leaves the hub exactly as it was, performs no effect (no write, no close) and
runs to its end; the step is a total function, so there is no error; and in
every state a second `Leave(p)` right after a `Leave(p)` changes nothing and
performs no effect. -/
theorem idempotent_leave (s : ChatRoom) (p : Conn) (e e' : Env) :
    (p ∉ s.clients → s.runStep e (Request.unregister p) = ⟨s, [], true⟩) ∧
    ((s.runStep e (Request.unregister p)).1).runStep e' (Request.unregister p)
      = ⟨(s.runStep e (Request.unregister p)).1, [], true⟩ ∧
    s.run [(Request.unregister p, e), (Request.unregister p, e')]
      = s.run [(Request.unregister p, e)] := by
  have hgone : p ∉ mapDelete s.clients p := by simp [mem_mapDelete]
  refine ⟨?_, ?_, ?_⟩
  · intro hp
    simp [ChatRoom.runStep, mapDelete_of_not_mem _ _ hp]
  · simp [ChatRoom.runStep, mapDelete_of_not_mem _ _ hgone]
  · simp [ChatRoom.run, ChatRoom.runStep, mapDelete_of_not_mem _ _ hgone]

theorem idempotent_leave_witness :
    (4 : Conn) ∉ [1, 2, 3] ∧
    (ChatRoom.mk [1, 2, 3]).runStep envFail1 (Request.unregister 4) = ⟨⟨[1, 2, 3]⟩, [], true⟩ :=
  ⟨by decide, (idempotent_leave ⟨[1, 2, 3]⟩ 4 envFail1 envOk).1 (by decide)⟩

/-- C6 (no duplicate delivery): along every sequence of join and broadcast
requests in which every write succeeds, repeated joins included, the membership
list never holds a participant twice; a participant has every payload broadcast
after any of its joins written to it exactly once, in order (and so has a
participant that was a member from the start); and a join of a participant that
is already a member leaves the hub unchanged and performs no effect.  The
membership list of every state reachable from the empty hub, by any requests,
holds no participant twice. -/
theorem no_duplicate_delivery (s : ChatRoom) (tr : List (Request × Env))
    (hn : s.clients.Nodup)
    (hjb : ∀ x ∈ tr, (∃ c, x.1 = Request.register c) ∨ (∃ m, x.1 = Request.broadcast m))
    (hok : ∀ x ∈ tr, ∀ c, x.2.write c = WriteResult.ok) :
    (s.run tr).1.clients.Nodup ∧
    (∀ p pre e post, tr = pre ++ (Request.register p, e) :: post →
      attempts p (((s.run (pre ++ [(Request.register p, e)])).1).run post).2 = payloads post
      ∧ delivered p (((s.run (pre ++ [(Request.register p, e)])).1).run post).2
          = payloads post) ∧
    (∀ p, p ∈ s.clients →
      attempts p (s.run tr).2 = payloads tr ∧ delivered p (s.run tr).2 = payloads tr) ∧
    (∀ p e, p ∈ s.clients → s.runStep e (Request.register p) = ⟨s, [], true⟩) ∧
    (s.run tr).3 = true ∧
    (∀ tr', (NewChatRoom.run tr').1.clients.Nodup) := by
  have hkeep : ∀ (p : Conn) (l : List (Request × Env)), (∀ x ∈ l, x ∈ tr) →
      ∀ x ∈ l, x.1 ≠ Request.unregister p
        ∧ ((∃ m, x.1 = Request.broadcast m) → x.2.write p = WriteResult.ok) := by
    intro p l hl x hx
    refine ⟨?_, fun _ => hok x (hl x hx) p⟩
    rcases hjb x (hl x hx) with ⟨c, hc⟩ | ⟨m, hm⟩
    · rw [hc]; simp
    · rw [hm]; simp
  have hret : ∀ (t : ChatRoom) (l : List (Request × Env)), (∀ x ∈ l, x ∈ tr) →
      (t.run l).3 = true := by
    intro t l hl
    apply run_returned
    intro x hx c
    rw [hok x (hl x hx) c]
    simp
  refine ⟨nodup_run s tr hn, ?_, ?_, ?_, hret s tr (fun _ h => h), ?_⟩
  · intro p pre e post htr
    have hsub : ∀ x ∈ pre ++ [(Request.register p, e)], x ∈ tr := by
      intro x hx
      rw [htr]
      rcases List.mem_append.mp hx with h | h
      · exact List.mem_append_left _ h
      · rw [List.mem_singleton] at h
        rw [h]
        exact List.mem_append_right _ (List.mem_cons_self _ _)
    have hpost : ∀ x ∈ post, x ∈ tr := by
      intro x hx
      rw [htr]
      exact List.mem_append_right _ (List.mem_cons_of_mem _ hx)
    have hmem : p ∈ (s.run (pre ++ [(Request.register p, e)])).1.clients := by
      have hp := run_returned_prefix s pre _ (hret s _ hsub)
      rw [run_append_returned s pre _ hp, run_singleton, runStep_register]
      exact (mem_mapInsert _ _ _).mpr (Or.inr rfl)
    exact run_member_attempts _ p post (nodup_run s _ hn) hmem (hkeep p post hpost)
      (hret _ post hpost)
  · intro p hp
    exact run_member_attempts s p tr hn hp (hkeep p tr (fun _ h => h))
      (hret s tr (fun _ h => h))
  · intro p e hp
    simp [ChatRoom.runStep, mapInsert_of_mem _ _ hp]
  · intro tr'
    exact nodup_run NewChatRoom tr' (by simp [NewChatRoom])

theorem no_duplicate_delivery_witness :
    (NewChatRoom.run [(Request.register 1, envOk), (Request.broadcast [97], envOk),
      (Request.register 1, envOk), (Request.register 2, envOk),
      (Request.broadcast [98], envOk)]).1.clients.Nodup ∧
    attempts 1 (((NewChatRoom.run ([] ++ [(Request.register 1, envOk)])).1).run
      [(Request.broadcast [97], envOk), (Request.register 1, envOk),
        (Request.register 2, envOk), (Request.broadcast [98], envOk)]).2
      = payloads [(Request.broadcast [97], envOk), (Request.register 1, envOk),
        (Request.register 2, envOk), (Request.broadcast [98], envOk)] :=
  have h := no_duplicate_delivery NewChatRoom
    [(Request.register 1, envOk), (Request.broadcast [97], envOk),
      (Request.register 1, envOk), (Request.register 2, envOk),
      (Request.broadcast [98], envOk)]
    (by simp [NewChatRoom])
    (by
      intro x hx
      simp only [List.mem_cons, List.mem_singleton, List.not_mem_nil, or_false] at hx
      rcases hx with h | h | h | h | h <;> rw [h] <;> simp)
    (by
      intro x hx c
      simp only [List.mem_cons, List.mem_singleton, List.not_mem_nil, or_false] at hx
      rcases hx with h | h | h | h | h <;> rw [h] <;> rfl)
  ⟨h.1, (h.2.1 1 [] envOk _ rfl).1⟩

/-- C7 (order preservation): when the hub processes `Broadcast(M1)` and later
`Broadcast(M2)`, `p` is a member when each of them is processed and both writes
to `p` succeed, the payloads written to `p` contain `M1` before `M2`; and in
every run the payloads written to `p`, and those written without error, form a
subsequence of the payloads in the order the hub processed the broadcasts. -/
theorem order_preservation (s : ChatRoom) (p : Conn) (tr : List (Request × Env))
    (hn : s.clients.Nodup) :
    (∀ pre mid post M1 M2 e1 e2,
      tr = pre ++ (Request.broadcast M1, e1) :: mid ++ (Request.broadcast M2, e2) :: post →
      p ∈ (s.run pre).1.clients →
      p ∈ (s.run (pre ++ (Request.broadcast M1, e1) :: mid)).1.clients →
      e1.write p = WriteResult.ok → e2.write p = WriteResult.ok →
      (s.run (pre ++ (Request.broadcast M1, e1) :: mid ++ [(Request.broadcast M2, e2)])).3
        = true →
      ∃ A B C, delivered p (s.run tr).2 = A ++ M1 :: B ++ M2 :: C) ∧
    (attempts p (s.run tr).2).Sublist (payloads tr) ∧
    (delivered p (s.run tr).2).Sublist (payloads tr) := by
  refine ⟨?_, attempts_sublist_payloads s p tr hn,
    (delivered_sublist_attempts p _).trans (attempts_sublist_payloads s p tr hn)⟩
  intro pre mid post M1 M2 e1 e2 htr hm1 hm2 hw1 hw2 hproc
  have htr' : tr = (pre ++ (Request.broadcast M1, e1) :: mid ++ [(Request.broadcast M2, e2)])
      ++ post := by rw [htr]; simp
  have hP1 : (s.run (pre ++ (Request.broadcast M1, e1) :: mid)).3 = true :=
    run_returned_prefix s _ _ hproc
  have hpre : (s.run pre).3 = true := run_returned_prefix s pre _ hP1
  have hsplit : pre ++ (Request.broadcast M1, e1) :: mid
      = pre ++ ([(Request.broadcast M1, e1)] ++ mid) := by simp
  -- the second broadcast
  have hstep2 : ((s.run (pre ++ (Request.broadcast M1, e1) :: mid)).1.runStep e2
      (Request.broadcast M2)).3 = true := by
    have := hproc
    rw [run_append_returned s _ _ hP1, run_singleton] at this
    exact this
  have hd2 : delivered p ((s.run (pre ++ (Request.broadcast M1, e1) :: mid)).1.runStep e2
      (Request.broadcast M2)).2 = [M2] :=
    runStep_broadcast_delivered _ e2 M2 p (nodup_run s _ hn) hm2 hw2 hstep2
  -- the first broadcast
  have hmid : (((s.run pre).1).run ([(Request.broadcast M1, e1)] ++ mid)).3 = true := by
    have := hP1
    rw [hsplit, run_append_returned s pre _ hpre] at this
    exact this
  have hstep1 : ((s.run pre).1.runStep e1 (Request.broadcast M1)).3 = true := by
    have := run_returned_prefix _ _ _ hmid
    rwa [run_singleton] at this
  have hd1 : delivered p ((s.run pre).1.runStep e1 (Request.broadcast M1)).2 = [M1] :=
    runStep_broadcast_delivered _ e1 M1 p (nodup_run s pre hn) hm1 hw1 hstep1
  refine ⟨delivered p (s.run pre).2,
    delivered p (((s.run pre).1.runStep e1 (Request.broadcast M1)).1.run mid).2,
    delivered p (((s.run (pre ++ (Request.broadcast M1, e1) :: mid)).1.runStep e2
      (Request.broadcast M2)).1.run post).2, ?_⟩
  rw [htr', run_append_returned s _ post hproc]
  simp only []
  rw [delivered_append, run_append_returned s _ [(Request.broadcast M2, e2)] hP1]
  simp only []
  rw [delivered_append, run_singleton, hd2]
  have hrun1 : (s.run (pre ++ (Request.broadcast M1, e1) :: mid)).2
      = (s.run pre).2 ++ (((s.run pre).1.runStep e1 (Request.broadcast M1)).2
          ++ (((s.run pre).1.runStep e1 (Request.broadcast M1)).1.run mid).2) := by
    rw [hsplit, run_append_returned s pre _ hpre, List.singleton_append,
      run_cons_returned _ (Request.broadcast M1, e1) mid hstep1]
  rw [hrun1, delivered_append, delivered_append, hd1]
  simp

theorem order_preservation_witness :
    ([1, 2] : List Conn).Nodup ∧
    (∃ A B C, delivered 2 ((ChatRoom.mk [1, 2]).run
      [(Request.register 3, envOk), (Request.broadcast [97], envFail1),
        (Request.unregister 3, envOk), (Request.broadcast [98], envOk)]).2
      = A ++ [97] :: B ++ [98] :: C) :=
  have h := order_preservation ⟨[1, 2]⟩ 2
    [(Request.register 3, envOk), (Request.broadcast [97], envFail1),
      (Request.unregister 3, envOk), (Request.broadcast [98], envOk)] (by decide)
  ⟨by decide, h.1 [(Request.register 3, envOk)] [(Request.unregister 3, envOk)] []
    [97] [98] envFail1 envOk rfl (by decide) (by decide) rfl rfl (by decide)⟩

/-- C8 (membership changes only as stated): for every state and every step of
the loop, (i) a participant that is a member after the step and was not before
is the participant of a register request; (ii) a participant that was a member
before the step and is not after is the participant of an unregister request,
or the request is a broadcast and the write to that participant failed;
(iii) a register or unregister of `p` leaves the membership of every other
participant as it was; (iv) a broadcast step in which no write fails leaves the
hub unchanged. -/
theorem membership_frame (s : ChatRoom) (env : Env) (req : Request) :
    (∀ q, q ∈ (s.runStep env req).1.clients → q ∉ s.clients → req = Request.register q) ∧
    (∀ q, q ∈ s.clients → q ∉ (s.runStep env req).1.clients →
      req = Request.unregister q
        ∨ ∃ M, req = Request.broadcast M
            ∧ Effect.writeMessage q M WriteResult.err ∈ (s.runStep env req).2) ∧
    (∀ p q, q ≠ p → (req = Request.register p ∨ req = Request.unregister p) →
      (q ∈ (s.runStep env req).1.clients ↔ q ∈ s.clients)) ∧
    (∀ M, req = Request.broadcast M →
      (∀ c m, Effect.writeMessage c m WriteResult.err ∉ (s.runStep env req).2) →
      (s.runStep env req).1 = s) := by
  refine ⟨?_, ?_, ?_, ?_⟩
  · intro q hafter hbefore
    rcases runStep_subset s env req q hafter with h | h
    · exact absurd h hbefore
    · exact h
  · intro q hbefore hafter
    by_cases hu : req = Request.unregister q
    · exact Or.inl hu
    · right
      cases req with
      | register client =>
        exact absurd (runStep_kept s env _ q hbefore hu (by simp)) hafter
      | unregister client =>
        exact absurd (runStep_kept s env _ q hbefore hu (by simp)) hafter
      | broadcast M =>
        refine ⟨M, rfl, ?_⟩
        rw [runStep_broadcast] at hafter ⊢
        exact broadcastLoop_lost _ _ _ _ q hbefore hafter
  · intro p q hqp hreq
    rcases hreq with h | h
    · rw [h]
      simp [ChatRoom.runStep, mem_mapInsert, hqp]
    · rw [h]
      simp [ChatRoom.runStep, mem_mapDelete, hqp]
  · intro M hM hnofail
    rw [hM] at hnofail ⊢
    rw [runStep_broadcast] at hnofail ⊢
    have := broadcastLoop_unchanged M env.write _ _ hnofail
    simp only []
    rw [this]

theorem membership_frame_witness :
    (1 : Conn) ∈ [1, 2, 3] ∧
    (1 : Conn) ∉ ((ChatRoom.mk [1, 2, 3]).runStep envFail1 (Request.broadcast [99])).1.clients ∧
    (Request.broadcast [99] = Request.unregister 1
      ∨ ∃ M, Request.broadcast [99] = Request.broadcast M
        ∧ Effect.writeMessage 1 M WriteResult.err
          ∈ ((ChatRoom.mk [1, 2, 3]).runStep envFail1 (Request.broadcast [99])).2) :=
  ⟨by decide, by decide,
    (membership_frame ⟨[1, 2, 3]⟩ envFail1 (Request.broadcast [99])).2.1 1
      (by decide) (by decide)⟩

end Chatroom
